import Mathlib

/-!
Shallow embedding of the graph-layer core of the `gcnn_keras` repository:
atom-centered symmetry functions (`kgcnn/layers/conv/acsf_conv.py`),
NMPN-style message passing (`kgcnn/layers/conv/mpnn_conv.py` and
`kgcnn/literature/NMPN.py`) and the ragged-tensor base layer
(`kgcnn/layers/base.py`).

Tensors are modelled as lists of rows over `ℝ`; a ragged tensor is its flat
value list together with its row-splits list.  Layers that the repository
imports from modules not present under `src/` (`kgcnn.layers.gather`,
`kgcnn.layers.geom`, `kgcnn.layers.pooling`, `kgcnn.layers.modules`,
`kgcnn.layers.keras`, `kgcnn.layers.update`) are modelled from the spec and
marked as such in their doc comments.
-/

noncomputable section

/-! ## Basic vector operations -/

/-- Dot product of two flat vectors. -/
def dotL (a b : List ℝ) : ℝ := (List.zipWith (fun x y => x * y) a b).sum

/-- Elementwise sum of two flat vectors. -/
def vecAdd (a b : List ℝ) : List ℝ := List.zipWith (fun x y => x + y) a b

/-- Elementwise product of two flat vectors (the `LazyMultiply` primitive,
modelled from the spec: elementwise multiplication of aligned value rows,
`kgcnn.layers.modules` is not under `src/`). -/
def vecMul (a b : List ℝ) : List ℝ := List.zipWith (fun x y => x * y) a b

/-- Matrix–vector product; the output length is the number of matrix rows. -/
def matVec (W : List (List ℝ)) (x : List ℝ) : List ℝ := W.map (fun row => dotL row x)

/-- Componentwise sum of a list of vectors, at fixed output width `m`
(the aggregation identity 0 is used for empty contributions). -/
def vecSumM (m : ℕ) (vs : List (List ℝ)) : List ℝ :=
  (List.range m).map (fun q => (vs.map (fun v => v.getD q 0)).sum)

/-! ## Geometry -/

/-- A 3d coordinate row. -/
abbrev Vec3 := ℝ × ℝ × ℝ

/-- Componentwise difference of two coordinates (the `LazySubtract` primitive
applied to gathered positions). -/
def sub3 (a b : Vec3) : Vec3 := (a.1 - b.1, a.2.1 - b.2.1, a.2.2 - b.2.2)

/-- Euclidean dot product on coordinates. -/
def dot3 (a b : Vec3) : ℝ := a.1 * b.1 + a.2.1 * b.2.1 + a.2.2 * b.2.2

/-- Modelled from the spec: `NodeDistanceEuclidean` (imported from
`kgcnn.layers.geom`, which is not under `src/`): Euclidean distance of two
node positions, with the configurable epsilon added to the distance when
`addEps` is set ("configurable epsilon added to distances before reciprocal
use"). -/
def distE (addEps : Bool) (eps : ℝ) (a b : Vec3) : ℝ :=
  Real.sqrt (dot3 (sub3 a b) (sub3 a b)) + (if addEps then eps else 0)

/-! ## ACSF element lookup tables (`acsf_conv.py`) -/

/-- `ACSFRadial._max_atomic_number = 96`. -/
def maxAtomicNumber : ℕ := 96

/-- `np.iinfo(np.int64).max`, the fill value of the reverse mapping tables
(`reverse_mapping.fill(np.iinfo(self.reverse_mapping.dtype).max)`). -/
def sentinel64 : ℕ := 2 ^ 63 - 1

/-- The dense element-to-relation table built in `ACSFRadial.__init__`:
a length-96 array filled with the int64-max sentinel, then
`reverse_mapping[pos] = i` for each `(i, pos)` in the element mapping. -/
def reverseMapping (elementMapping : List ℕ) : List ℕ :=
  elementMapping.enum.foldl (fun tbl ip => tbl.set ip.2 ip.1)
    (List.replicate maxAtomicNumber sentinel64)

/-- `ACSFRadial._find_atomic_number_maps`: a plain `tf.gather` into the
reverse-mapping table, with no guard against the sentinel. -/
def findAtomicNumberMaps (tbl : List ℕ) (z : ℕ) : ℕ := tbl.getD z 0

/-- Write `v` at position `(a, b)` of a nested table (no-op out of range,
matching an in-range numpy assignment under the in-range hypotheses used
below). -/
def set2 (tbl : List (List ℕ)) (a b v : ℕ) : List (List ℕ) :=
  tbl.set a ((tbl.getD a []).set b v)

/-- The dense pair table built in `ACSFAngular.__init__`: 96×96 filled with
the int64-max sentinel, then for each `(i, (p0, p1))` of the element-pair
mapping, `reverse_pair_mapping[p0, p1] = i` and, when `keep_pair_order` is
disabled, also `reverse_pair_mapping[p1, p0] = i`. -/
def pairTable (pairs : List (ℕ × ℕ)) (keepPairOrder : Bool) : List (List ℕ) :=
  pairs.enum.foldl (fun tbl ip =>
    let t1 := set2 tbl ip.2.1 ip.2.2 ip.1
    if keepPairOrder then t1 else set2 t1 ip.2.2 ip.2.1 ip.1)
    (List.replicate maxAtomicNumber (List.replicate maxAtomicNumber sentinel64))

/-- `ACSFAngular._find_atomic_number_pair_maps`: nested gather into the pair
table. -/
def findAtomicNumberPairMaps (tbl : List (List ℕ)) (a b : ℕ) : ℕ :=
  (tbl.getD a []).getD b 0

/-! ## ACSF radial featurizer (`ACSFRadial`) -/

/-- `ACSFRadial._compute_fc`: clip the distance to `[-Rc, Rc]`, then
`0.5·(cos(clip·π/Rc) + 1)`.  The parameter triple is `(η, Rs, Rc)`. -/
def computeFcR (r : ℝ) (p : ℝ × ℝ × ℝ) : ℝ :=
  let rc := p.2.2
  let c := min (max r (-rc)) rc
  (Real.cos (c * Real.pi / rc) + 1) * 0.5

/-- `ACSFRadial._compute_gaussian_expansion`: `exp(-(r - μ)²·η)`. -/
def computeGaussR (r : ℝ) (p : ℝ × ℝ × ℝ) : ℝ :=
  Real.exp (-((r - p.2.1) ^ 2 * p.1))

/-- Per-edge radial representation: parameters of the edge's relation id are
gathered (`_find_params_per_bond`, rank-3 parameter branch) and the
Gaussian expansion is multiplied with the cutoff weight
(`lazy_mult([gij, fc])`). -/
def radialEdgeRep (table : List (List (ℝ × ℝ × ℝ))) (r : ℝ) (rel : ℕ) : List ℝ :=
  let ps := table.getD rel []
  vecMul (ps.map (fun p => computeGaussR r p)) (ps.map (fun p => computeFcR r p))

/-- Modelled from the spec: `RelationalPoolingLocalEdges`
(`kgcnn.layers.pooling` is not under `src/`): sum the per-edge value rows
into one slot per (target node, relation id), the target node taken from
slot 0 of the index tuple; slots with no contributing edge stay at the
aggregation identity 0.  `entries` pairs each edge's (target, relation)
with its value row. -/
def relationalPoolSum (numNodes numRel m : ℕ)
    (entries : List ((ℕ × ℕ) × List ℝ)) : List (List (List ℝ)) :=
  (List.range numNodes).map (fun n =>
    (List.range numRel).map (fun p =>
      vecSumM m (entries.filterMap (fun e =>
        if e.1.1 = n ∧ e.1.2 = p then some e.2 else none))))

/-- `ACSFRadial._flatten_relations` / `ACSFAngular._flatten_relations`:
reshape `(nodes, num_relations, m)` to `(nodes, num_relations·m)`. -/
def flattenRelations (rows : List (List (List ℝ))) : List (List ℝ) :=
  rows.map List.join

/-- `ACSFRadial.call` on the flat values of one batch: distances per edge,
relation ids from the neighbor's atomic number, per-edge Gaussian×cutoff
representation, relational sum-pooling to the edge's first index slot, and
flattening over (relations × descriptors). -/
def radialCall (elementMapping : List ℕ) (table : List (List (ℝ × ℝ × ℝ)))
    (addEps : Bool) (eps : ℝ) (z : List ℕ) (xyz : List Vec3)
    (eij : List (ℕ × ℕ)) : List (List ℝ) :=
  let tbl := reverseMapping elementMapping
  let rij := eij.map (fun e => distE addEps eps (xyz.getD e.1 (0, 0, 0)) (xyz.getD e.2 (0, 0, 0)))
  let zjMap := eij.map (fun e => findAtomicNumberMaps tbl (z.getD e.2 0))
  let reps := List.zipWith (radialEdgeRep table) rij zjMap
  let targets := eij.map (fun e => e.1)
  flattenRelations (relationalPoolSum z.length table.length ((table.getD 0 []).length)
    ((targets.zip zjMap).zip reps))

/-! ## ACSF angular featurizer (`ACSFAngular`) -/

/-- `ACSFAngular._compute_fc`: same smooth cutoff, the cutoff radius being
component 3 of the parameter tuple `(η, ζ, λ, Rc)`. -/
def computeFcA (r : ℝ) (p : ℝ × ℝ × ℝ × ℝ) : ℝ :=
  let rc := p.2.2.2
  let c := min (max r (-rc)) rc
  (Real.cos (c * Real.pi / rc) + 1) * 0.5

/-- `ACSFAngular._compute_gaussian_expansion`: `exp(-(r²·η))` (no center). -/
def computeGaussA (r : ℝ) (p : ℝ × ℝ × ℝ × ℝ) : ℝ :=
  Real.exp (-(r ^ 2 * p.1))

/-- `ACSFAngular._compute_pow_cos_angle_`: `cosθ = (vij·vik)/rij/rik`,
then `2^(1-ζ)·(cosθ·λ + 1)^ζ`.  The distances are used as divisors with no
further guard inside this function. -/
def computePowCosAngle (vij vik : Vec3) (rij rik : ℝ) (p : ℝ × ℝ × ℝ × ℝ) : ℝ :=
  let cosTheta := dot3 vij vik / rij / rik
  let cosTerm := (cosTheta * p.2.2.1 + 1) ^ p.2.1
  (2 : ℝ) ^ (1 - p.2.1) * cosTerm

/-- The three pairwise distances `(r_ij, r_ik, r_jk)` of an angle triple,
computed by the `NodeDistanceEuclidean` sub-layer with the featurizer's
`add_eps` setting. -/
def triDistances (addEps : Bool) (eps : ℝ) (xyz : List Vec3) (t : ℕ × ℕ × ℕ) : ℝ × ℝ × ℝ :=
  let xi := xyz.getD t.1 (0, 0, 0)
  let xj := xyz.getD t.2.1 (0, 0, 0)
  let xk := xyz.getD t.2.2 (0, 0, 0)
  (distE addEps eps xi xj, distE addEps eps xi xk, distE addEps eps xj xk)

/-- Per-triple angular representation: the product
`lazy_mult([pow_cos_theta, gij, gik, gjk, fij, fik, fjk])` with parameters
of the triple's pair-relation id (rank-3 parameter branch of
`_find_params_per_bond`). -/
def angularTripleRep (table : List (List (ℝ × ℝ × ℝ × ℝ))) (addEps : Bool) (eps : ℝ)
    (xyz : List Vec3) (t : ℕ × ℕ × ℕ) (rel : ℕ) : List ℝ :=
  let ps := table.getD rel []
  let xi := xyz.getD t.1 (0, 0, 0)
  let xj := xyz.getD t.2.1 (0, 0, 0)
  let xk := xyz.getD t.2.2 (0, 0, 0)
  let d := triDistances addEps eps xyz t
  let vij := sub3 xi xj
  let vik := sub3 xi xk
  vecMul (ps.map (fun p => computePowCosAngle vij vik d.1 d.2.1 p))
    (vecMul (ps.map (fun p => computeGaussA d.1 p))
      (vecMul (ps.map (fun p => computeGaussA d.2.1 p))
        (vecMul (ps.map (fun p => computeGaussA d.2.2 p))
          (vecMul (ps.map (fun p => computeFcA d.1 p))
            (vecMul (ps.map (fun p => computeFcA d.2.1 p))
              (ps.map (fun p => computeFcA d.2.2 p)))))))

/-- `ACSFAngular.call` on the flat values of one batch: pair-relation ids
from the two neighbors' atomic numbers, per-triple representation,
relational sum-pooling to the center atom (index slot 0), flattening. -/
def angularCall (elementMapping : List ℕ) (pairs : List (ℕ × ℕ)) (keepPairOrder : Bool)
    (table : List (List (ℝ × ℝ × ℝ × ℝ))) (addEps : Bool) (eps : ℝ)
    (z : List ℕ) (xyz : List Vec3) (ijk : List (ℕ × ℕ × ℕ)) : List (List ℝ) :=
  let ptbl := pairTable pairs keepPairOrder
  let zjkMap := ijk.map (fun t =>
    findAtomicNumberPairMaps ptbl (z.getD t.2.1 0) (z.getD t.2.2 0))
  let reps := List.zipWith (angularTripleRep table addEps eps xyz) ijk zjkMap
  let targets := ijk.map (fun t => t.1)
  flattenRelations (relationalPoolSum z.length table.length ((table.getD 0 []).length)
    ((targets.zip zjkMap).zip reps))

/-! ## Ragged tensors and the base layer (`base.py`) -/

/-- A ragged tensor of ragged rank one: flat value rows plus row splits. -/
structure RaggedT (α : Type) where
  values : List α
  rowSplits : List ℕ

/-- `GraphBaseLayer.map_values` on a list of ragged-rank-1 inputs with
`ragged_validate = False` (the axis-free call path of
`kgcnn/layers/base.py`, lines 148-156): apply `f` to the list of flat
value tensors (one per input) and attach the FIRST input's row splits to
the output (`tf.RaggedTensor.from_row_splits(out, inputs[0].row_splits,
validate=False)`); the other inputs' row splits are neither checked nor
used. -/
def mapValuesList {α β : Type} (f : List (List α) → List β)
    (x0 : RaggedT α) (xs : List (RaggedT α)) : RaggedT β :=
  RaggedT.mk (f ((x0 :: xs).map (fun r => r.values))) x0.rowSplits

/-! ## NMPN message passing (`mpnn_conv.py`, `NMPN.py`) -/

/-- Modelled from the spec: the `Dense` layer (`kgcnn.layers.keras` wraps
the backend dense layer, not under `src/`): affine map plus an activation,
applied to one row. -/
def dense (act : ℝ → ℝ) (W : List (List ℝ)) (b : List ℝ) (x : List ℝ) : List ℝ :=
  (vecAdd (matVec W x) b).map act

/-- The flat reshape of `TrafoEdgeNetMessages.call`:
`tf.reshape(dens_trafo, (E, units_out, units_in))` succeeds iff the total
element count matches, i.e. `Σ row widths = E·units_out·units_in`;
otherwise the operation aborts (ShapeMismatch). -/
def reshapeBatch (uo ui : ℕ) (rows : List (List ℝ)) :
    Option (List (List (List ℝ))) :=
  let flat := rows.join
  if flat.length = rows.length * (uo * ui) then
    some ((List.range rows.length).map (fun e =>
      (List.range uo).map (fun r => ((flat.drop (e * (uo * ui) + r * ui)).take ui))))
  else none

/-- `TrafoEdgeNetMessages.call`: dense-transform each edge feature row to
width `units_out·units_in`, reshape the flat result into one
`(units_out, units_in)` matrix per edge, and reattach the edge row splits
(`tf.RaggedTensor.from_row_splits(dens_m, trafo_part)`). -/
def trafoEdgeNetMessages (uo ui : ℕ) (act : ℝ → ℝ) (W : List (List ℝ)) (b : List ℝ)
    (inp : RaggedT (List ℝ)) : Option (RaggedT (List (List ℝ))) :=
  let up := inp.values.map (dense act W b)
  (reshapeBatch uo ui up).map (fun mats => RaggedT.mk mats inp.rowSplits)

/-- One `(uo, ui)` matrix from a flat row of width `uo·ui`. -/
def chunkMat (uo ui : ℕ) (v : List ℝ) : List (List ℝ) :=
  (List.range uo).map (fun r => (v.drop (r * ui)).take ui)

/-- Modelled from the spec: `TrafoMatMulMessages` (imported in `NMPN.py`
from `kgcnn.layers.update`, not under `src/`): reshape each per-edge flat
row into a `(units, units)` matrix — the edge feature width must factor
exactly or the transform fails with ShapeMismatch — and apply it to the
gathered per-edge vector by a batched matrix–vector product, keeping the
edge partition. -/
def trafoMatMulMessages (uo ui : ℕ) (edgeNet eu : RaggedT (List ℝ)) :
    Option (RaggedT (List ℝ)) :=
  if edgeNet.values.all (fun v => v.length == uo * ui) then
    some (RaggedT.mk
      (List.zipWith (fun v x => matVec (chunkMat uo ui v) x) edgeNet.values eu.values)
      eu.rowSplits)
  else none

/-- Modelled from the spec: `GatherNodesOutgoing` (`kgcnn.layers.gather`
not under `src/`): one node-feature row per edge, taken at the source slot
(index 1) of the edge tuple, with the edge partition. -/
def gatherNodesOutgoing (nodes : RaggedT (List ℝ)) (edi : RaggedT (ℕ × ℕ)) :
    RaggedT (List ℝ) :=
  RaggedT.mk (edi.values.map (fun e => nodes.values.getD e.2 [])) edi.rowSplits

/-- Pooling method of `PoolingLocalEdges`. -/
inductive PoolMethod : Type
  | sum : PoolMethod
  | mean : PoolMethod

/-- Modelled from the spec: `PoolingLocalEdges` (`kgcnn.layers.pooling` not
under `src/`): segment-reduce the per-edge value rows into one row per
target node (slot 0 of the edge tuple), by sum or by mean; a node with no
contributing edge gets 0, not NaN. -/
def poolingLocalEdges (method : PoolMethod) (numNodes w : ℕ)
    (vals : List (List ℝ)) (edges : List (ℕ × ℕ)) : List (List ℝ) :=
  (List.range numNodes).map (fun n =>
    let contrib := (edges.zip vals).filterMap (fun ev =>
      if ev.1.1 = n then some ev.2 else none)
    let s := vecSumM w contrib
    match method with
    | PoolMethod.sum => s
    | PoolMethod.mean =>
        if contrib.length = 0 then s else s.map (fun t => t / (contrib.length : ℝ)))

/-- The GRU cell parameters (keras `GRUCell`, `reset_after = True`): kernel
and recurrent-kernel blocks for the update gate `z`, reset gate `r` and the
candidate state, input and recurrent biases, and the two activations. -/
structure GRUParams where
  sigA : ℝ → ℝ
  tauA : ℝ → ℝ
  Wz : List (List ℝ)
  Wr : List (List ℝ)
  Wh : List (List ℝ)
  Uz : List (List ℝ)
  Ur : List (List ℝ)
  Uh : List (List ℝ)
  biz : List ℝ
  bir : List ℝ
  bih : List ℝ
  bhz : List ℝ
  bhr : List ℝ
  bhh : List ℝ

/-- Modelled from the backend `GRUCell` the source calls (`reset_after`
convention): gates from input `x` and state `h`, new state
`z∘h + (1-z)∘hh`. -/
def gruCell (p : GRUParams) (x h : List ℝ) : List ℝ :=
  let z := (vecAdd (vecAdd (matVec p.Wz x) p.biz) (vecAdd (matVec p.Uz h) p.bhz)).map p.sigA
  let r := (vecAdd (vecAdd (matVec p.Wr x) p.bir) (vecAdd (matVec p.Ur h) p.bhr)).map p.sigA
  let hh := (vecAdd (vecAdd (matVec p.Wh x) p.bih) (vecMul r (vecAdd (matVec p.Uh h) p.bhh))).map p.tauA
  vecAdd (vecMul z h) (vecMul (z.map (fun t => 1 - t)) hh)

/-- All GRU weight blocks sized for `u` units. -/
def GRUParams.WellShaped (p : GRUParams) (u : ℕ) : Prop :=
  p.Wz.length = u ∧ p.Wr.length = u ∧ p.Wh.length = u ∧
  p.Uz.length = u ∧ p.Ur.length = u ∧ p.Uh.length = u ∧
  p.biz.length = u ∧ p.bir.length = u ∧ p.bih.length = u ∧
  p.bhz.length = u ∧ p.bhr.length = u ∧ p.bhh.length = u

/-- `GRUUpdate.call`: run the GRU cell on each (update row, node row) pair
of the flat values — `out, _ = self.gru_cell(eu, n)` — and reattach the
NODE row splits (`tf.RaggedTensor.from_row_splits(out, npart)`). -/
def gruUpdate (p : GRUParams) (nodes updates : RaggedT (List ℝ)) : RaggedT (List ℝ) :=
  RaggedT.mk (List.zipWith (fun h x => gruCell p x h) nodes.values updates.values)
    nodes.rowSplits

/-- The per-iteration state of `make_nmpn`: the node features `n`, the
dense-transformed edge features `edge_net` and the edge indices `edi`. -/
structure NMPNState where
  n : RaggedT (List ℝ)
  edgeNet : RaggedT (List ℝ)
  edi : RaggedT (ℕ × ℕ)

/-- One iteration of the `for i in range(0, depth)` loop of `make_nmpn`:
gather outgoing node states, matrix-message transform, pooling to the
target nodes, GRU update of the node state.  Only the `n` field is
reassigned. -/
def nmpnStep (nodeDim : ℕ) (method : PoolMethod) (gp : GRUParams)
    (s : NMPNState) : Option NMPNState :=
  let eu := gatherNodesOutgoing s.n s.edi
  match trafoMatMulMessages nodeDim nodeDim s.edgeNet eu with
  | none => none
  | some eu2 =>
      let eu3 : RaggedT (List ℝ) :=
        RaggedT.mk (poolingLocalEdges method s.n.values.length nodeDim eu2.values s.edi.values)
          s.n.rowSplits
      some (NMPNState.mk (gruUpdate gp s.n eu3) s.edgeNet s.edi)

/-- The whole message-passing loop: `depth` strictly sequential iterations,
no convergence check; a ShapeMismatch in any iteration aborts the pass. -/
def nmpnLoop (nodeDim : ℕ) (method : PoolMethod) (gp : GRUParams) :
    ℕ → NMPNState → Option NMPNState
  | 0, s => some s
  | d + 1, s =>
      match nmpnStep nodeDim method gp s with
      | none => none
      | some s1 => nmpnLoop nodeDim method gp d s1

/-- `make_nmpn` forward pass from the embedded features on:
`n = Dense(node_dim, activation="linear")(n)`,
`edge_net = Dense(node_dim*node_dim, **edge_dense)(ed)`, then the loop;
returns the final node state. -/
def nmpnForward (depth nodeDim : ℕ) (method : PoolMethod) (gp : GRUParams)
    (WN : List (List ℝ)) (bN : List ℝ) (actE : ℝ → ℝ) (WE : List (List ℝ)) (bE : List ℝ)
    (nodesIn edgesIn : RaggedT (List ℝ)) (edi : RaggedT (ℕ × ℕ)) :
    Option (RaggedT (List ℝ)) :=
  let n0 : RaggedT (List ℝ) :=
    RaggedT.mk (nodesIn.values.map (dense (fun t => t) WN bN)) nodesIn.rowSplits
  let en : RaggedT (List ℝ) :=
    RaggedT.mk (edgesIn.values.map (dense actE WE bE)) edgesIn.rowSplits
  (nmpnLoop nodeDim method gp depth (NMPNState.mk n0 en edi)).map (fun s => s.n)

/-- Spec-side description of one message-passing iteration, following the
spec's words: (1) build a per-edge `(units_out × units_in)` linear map by
applying the learned transform to the edge features and reshaping; (2)
gather the source node's current state per edge; (3) apply the per-edge
matrix (batched matrix–vector product); (4) pool the per-edge results into
per-target-node updates; (5) update the node state with the recurrent
cell. -/
def specMessagePassingStep (nodeDim : ℕ) (method : PoolMethod) (gp : GRUParams)
    (actE : ℝ → ℝ) (WE : List (List ℝ)) (bE : List ℝ)
    (edgesIn : List (List ℝ)) (edi : List (ℕ × ℕ))
    (n : RaggedT (List ℝ)) : RaggedT (List ℝ) :=
  let mats := edgesIn.map (fun ef => chunkMat nodeDim nodeDim (dense actE WE bE ef))
  let gs := edi.map (fun e => n.values.getD e.2 [])
  let msgs := List.zipWith matVec mats gs
  let upd := poolingLocalEdges method n.values.length nodeDim msgs edi
  RaggedT.mk (List.zipWith (fun h x => gruCell gp x h) n.values upd) n.rowSplits

/-! ## Helper lemmas -/

theorem zipWith_map_same {α β γ δ : Type} (f : β → γ → δ) (g : α → β) (h : α → γ)
    (l : List α) :
    List.zipWith f (l.map g) (l.map h) = l.map (fun x => f (g x) (h x)) := by
  induction l with
  | nil => rfl
  | cons a l ih => simp [ih]

theorem filterMap_congr_mem {α β : Type} {f g : α → Option β} {l : List α}
    (h : ∀ a ∈ l, f a = g a) : l.filterMap f = l.filterMap g := by
  induction l with
  | nil => rfl
  | cons a l ih =>
      have ha := h a (List.mem_cons_self a l)
      have hl := ih (fun x hx => h x (List.mem_cons_of_mem a hx))
      cases hfa : f a with
      | none => simp [List.filterMap_cons, hfa, ha ▸ hfa, hl]
      | some b => simp [List.filterMap_cons, hfa, ha ▸ hfa, hl]

theorem getD_map_lt {α β : Type} (f : α → β) (l : List α) (q : ℕ) (hq : q < l.length)
    (d : β) (d0 : α) : (l.map f).getD q d = f (l.getD q d0) := by
  rw [List.getD_eq_getElem l d0 hq,
    List.getD_eq_getElem (l.map f) d (by simpa using hq)]
  simp

theorem sum_length_const {α : Type} (L : List (List α)) (c : ℕ)
    (h : ∀ r ∈ L, r.length = c) : (L.map List.length).sum = L.length * c := by
  induction L with
  | nil => simp
  | cons x xs ih =>
      have hx := h x (List.mem_cons_self x xs)
      have hxs := ih (fun r hr => h r (List.mem_cons_of_mem x hr))
      simp [hx, hxs, Nat.succ_mul, Nat.add_comm]

theorem join_getD {α : Type} (L : List (List α)) (m : ℕ)
    (hall : ∀ l ∈ L, l.length = m) (p q : ℕ) (hp : p < L.length) (hq : q < m)
    (d : α) : L.join.getD (p * m + q) d = (L.getD p []).getD q d := by
  induction L generalizing p with
  | nil => simp at hp
  | cons x xs ih =>
      have hx := hall x (List.mem_cons_self x xs)
      cases p with
      | zero =>
          have hqx : q < x.length := hx ▸ hq
          simp only [List.join_cons, Nat.zero_mul, Nat.zero_add, List.getD_cons_zero]
          rw [List.getD_eq_getElem _ d (by rw [List.length_append]; omega),
            List.getElem_append_left hqx, List.getD_eq_getElem _ d hqx]
      | succ pp =>
          have harith : (pp + 1) * m + q = x.length + (pp * m + q) := by
            rw [hx]; ring
          simp only [List.join_cons, harith, List.getD_cons_succ]
          rw [List.getD_eq_getElem?_getD, List.getElem?_append_right (by omega),
            ← List.getD_eq_getElem?_getD]
          have hsub : x.length + (pp * m + q) - x.length = pp * m + q := by omega
          rw [hsub, ih (fun l hl => hall l (List.mem_cons_of_mem x hl)) pp
            (by simpa using hp)]

theorem getD_set_eq {α : Type} (l : List α) (i j : ℕ) (v d : α) :
    (l.set i v).getD j d = if i = j ∧ i < l.length then v else l.getD j d := by
  induction l generalizing i j with
  | nil => simp [List.set]
  | cons a as ih =>
      cases i with
      | zero =>
          cases j with
          | zero => simp
          | succ jj => simp
      | succ ii =>
          cases j with
          | zero => simp
          | succ jj =>
              simp only [List.set, List.getD_cons_succ, ih, List.length_cons]
              by_cases hij : ii = jj ∧ ii < as.length
              · simp [hij, hij.1, hij.2]
              · rw [if_neg hij, if_neg]
                intro hc
                exact hij ⟨Nat.succ_injective hc.1, Nat.lt_of_succ_lt_succ hc.2⟩

/-! ## Claim C3: the smooth cutoff weight -/

/-- Claim C3: for every configured cutoff radius `Rc > 0`, the smooth cutoff
weight of both ACSF featurizers equals `0.5·(cos(π·r/Rc) + 1)` when
`0 ≤ r < Rc` and equals exactly 0 for every `r ≥ Rc`. -/
theorem acsf_cutoff_weight_formula (eta mu zeta lam r rc : ℝ) (hrc : 0 < rc) :
    (0 ≤ r → r < rc →
      computeFcR r (eta, mu, rc) = 0.5 * (Real.cos (Real.pi * r / rc) + 1) ∧
      computeFcA r (eta, zeta, lam, rc) = 0.5 * (Real.cos (Real.pi * r / rc) + 1)) ∧
    (rc ≤ r → computeFcR r (eta, mu, rc) = 0 ∧ computeFcA r (eta, zeta, lam, rc) = 0) := by
  have harg : ∀ s : ℝ, s * Real.pi / rc = Real.pi * s / rc := by
    intro s; ring
  constructor
  · intro h0 hlt
    have hmax : max r (-rc) = r := max_eq_left (by linarith)
    have hmin : min r rc = r := min_eq_left (le_of_lt hlt)
    constructor
    · simp only [computeFcR, hmax, hmin, harg r]
      ring
    · simp only [computeFcA, hmax, hmin, harg r]
      ring
  · intro hge
    have hmax : max r (-rc) = r := max_eq_left (by linarith)
    have hmin : min r rc = rc := min_eq_right hge
    have hpi : rc * Real.pi / rc = Real.pi := by
      field_simp
    constructor
    · simp only [computeFcR, hmax, hmin, hpi, Real.cos_pi]
      ring
    · simp only [computeFcA, hmax, hmin, hpi, Real.cos_pi]
      ring

/-- Witness for C3 at `r = 3`, `Rc = 2`: the cutoff weight is exactly 0. -/
theorem acsf_cutoff_weight_formula_witness :
    computeFcR 3 (0, 0, 2) = 0 ∧ computeFcA 3 (0, 0, 0, 2) = 0 :=
  (acsf_cutoff_weight_formula 0 0 0 0 3 2 (by norm_num)).2 (by norm_num)

/-! ## Claim C1: unmapped atomic numbers -/

/-- Claim C1 (code bug): with `element_mapping = [1, 6]`, the unmapped atomic
number 2 is mapped by `_find_atomic_number_maps` to the int64-max sentinel
index `2^63 - 1` instead of raising `UnmappedRelation`, and the radial
forward pass still returns one descriptor row per atom rather than
aborting. -/
theorem acsf_radial_unmapped_sentinel_no_abort :
    findAtomicNumberMaps (reverseMapping [1, 6]) 2 = 2 ^ 63 - 1 ∧
    (radialCall [1, 6] [[(0, 0, 8)], [(1, 0, 8)]] false 0 [1, 2]
      [(0, 0, 0), (1, 0, 0)] [(0, 1), (1, 0)]).length = 2 := by
  constructor
  · decide
  · simp [radialCall, flattenRelations, relationalPoolSum]

/-! ## Claim C9: the epsilon guard for the cosine divisors -/

/-- Claim C9 counterexample: with `add_eps = False` (the layer's default) and
two coincident atoms, the pairwise distance `r_ij` that
`_compute_pow_cos_angle_` uses as a divisor is exactly 0 — no epsilon is
added, so the cosine computation does divide by a zero distance. -/
theorem angular_cos_divisor_zero_counterexample :
    (triDistances false (1 / 100) [(0, 0, 0), (0, 0, 0), (1, 0, 0)] (0, 1, 2)).1 = 0 := by
  simp [triDistances, distE, sub3, dot3, List.getD]

/-- Claim C9 amended: when `add_eps` is enabled with a positive epsilon, the
epsilon is added to all three pairwise distances, so every divisor used by
the cosine computation is strictly positive. -/
theorem angular_cos_divisor_guarded (eps : ℝ) (xyz : List Vec3) (t : ℕ × ℕ × ℕ)
    (heps : 0 < eps) :
    0 < (triDistances true eps xyz t).1 ∧ 0 < (triDistances true eps xyz t).2.1 ∧
    0 < (triDistances true eps xyz t).2.2 := by
  refine ⟨?_, ?_, ?_⟩ <;>
    · simp only [triDistances, distE, if_pos]
      have := Real.sqrt_nonneg (dot3 (sub3 (xyz.getD t.1 (0, 0, 0)) (xyz.getD t.2.1 (0, 0, 0)))
        (sub3 (xyz.getD t.1 (0, 0, 0)) (xyz.getD t.2.1 (0, 0, 0))))
      positivity

/-- Witness for the amended C9 at a concrete configuration. -/
theorem angular_cos_divisor_guarded_witness :
    0 < (triDistances true (1 / 100) [(0, 0, 0), (0, 0, 0), (1, 0, 0)] (0, 1, 2)).1 ∧
    0 < (triDistances true (1 / 100) [(0, 0, 0), (0, 0, 0), (1, 0, 0)] (0, 1, 2)).2.1 ∧
    0 < (triDistances true (1 / 100) [(0, 0, 0), (0, 0, 0), (1, 0, 0)] (0, 1, 2)).2.2 :=
  angular_cos_divisor_guarded (1 / 100) [(0, 0, 0), (0, 0, 0), (1, 0, 0)] (0, 1, 2)
    (by norm_num)

/-! ## Claim C10: `map_values` and the first input's partition -/

/-- Claim C10: `map_values` on a list of ragged-rank-1 inputs (with
`ragged_validate` disabled) applies the function to the flat value tensors
only and attaches the first input's row splits to the output; the other
inputs' row splits are never checked or used — replacing them by any other
splits (same flat values) gives the identical output, whose partition is
always the first input's. -/
theorem map_values_first_partition {α β : Type} (f : List (List α) → List β)
    (x0 : RaggedT α) (xs ys : List (RaggedT α))
    (h : xs.map (fun r => r.values) = ys.map (fun r => r.values)) :
    mapValuesList f x0 xs = mapValuesList f x0 ys ∧
    (mapValuesList f x0 xs).rowSplits = x0.rowSplits ∧
    (mapValuesList f x0 xs).values = f ((x0 :: xs).map (fun r => r.values)) := by
  refine ⟨?_, rfl, rfl⟩
  simp only [mapValuesList, List.map_cons, h]

/-- Witness for C10: the second input's row splits `[0, 2]` and `[0, 1, 2]`
describe different per-graph lengths, yet the outputs coincide and carry
the first input's partition `[0, 1]`. -/
theorem map_values_first_partition_witness :
    mapValuesList (fun l : List (List ℕ) => l.join) (RaggedT.mk [0] [0, 1])
        [RaggedT.mk [1, 2] [0, 2]] =
      mapValuesList (fun l : List (List ℕ) => l.join) (RaggedT.mk [0] [0, 1])
        [RaggedT.mk [1, 2] [0, 1, 2]] ∧
    (mapValuesList (fun l : List (List ℕ) => l.join) (RaggedT.mk [0] [0, 1])
      [RaggedT.mk [1, 2] [0, 2]]).rowSplits = [0, 1] :=
  ⟨(map_values_first_partition (fun l => l.join) (RaggedT.mk [0] [0, 1])
      [RaggedT.mk [1, 2] [0, 2]] [RaggedT.mk [1, 2] [0, 1, 2]] rfl).1,
   (map_values_first_partition (fun l => l.join) (RaggedT.mk [0] [0, 1])
      [RaggedT.mk [1, 2] [0, 2]] [RaggedT.mk [1, 2] [0, 2]] rfl).2.1⟩

/-! ## Claim C8: the per-edge matrix transform's shape contract -/

theorem dense_length (act : ℝ → ℝ) (W : List (List ℝ)) (b : List ℝ) (x : List ℝ) :
    (dense act W b x).length = min W.length b.length := by
  simp [dense, vecAdd, matVec]

/-- Claim C8: in `TrafoEdgeNetMessages.call`, the dense-transformed edge
feature width is always exactly `units_out·units_in`, so the reshape into
one `(units_out, units_in)` matrix per edge succeeds and the output keeps
the edge partition; a batch of rows whose width does not factor into
`units_out·units_in` makes the reshape fail (ShapeMismatch, modelled as
`none`). -/
theorem trafo_edge_net_messages_shape (uo ui : ℕ) (act : ℝ → ℝ)
    (W : List (List ℝ)) (b : List ℝ) (inp : RaggedT (List ℝ))
    (hW : W.length = uo * ui) (hb : b.length = uo * ui) :
    (∀ row ∈ inp.values.map (dense act W b), row.length = uo * ui) ∧
    (∃ out, trafoEdgeNetMessages uo ui act W b inp = some out ∧
      out.rowSplits = inp.rowSplits) ∧
    (∀ (w : ℕ) (rows : List (List ℝ)), rows ≠ [] → (∀ r ∈ rows, r.length = w) →
      w ≠ uo * ui → reshapeBatch uo ui rows = none) := by
  have hrow : ∀ row ∈ inp.values.map (dense act W b), row.length = uo * ui := by
    intro row hr
    obtain ⟨x, _, hx⟩ := List.mem_map.mp hr
    rw [← hx, dense_length, hW, hb, Nat.min_self]
  refine ⟨hrow, ?_, ?_⟩
  · have hlen : ((inp.values.map (dense act W b)).join).length =
        (inp.values.map (dense act W b)).length * (uo * ui) := by
      rw [List.length_join, sum_length_const _ (uo * ui) hrow]
    refine ⟨RaggedT.mk ((List.range (inp.values.map (dense act W b)).length).map (fun e =>
      (List.range uo).map (fun r =>
        (((inp.values.map (dense act W b)).join.drop (e * (uo * ui) + r * ui)).take ui))))
      inp.rowSplits, ?_, rfl⟩
    simp only [trafoEdgeNetMessages, reshapeBatch]
    rw [if_pos hlen]
    rfl
  · intro w rows hne hall hw
    have hlen : (rows.join).length = rows.length * w := by
      rw [List.length_join, sum_length_const _ w hall]
    have : ¬ ((rows.join).length = rows.length * (uo * ui)) := by
      rw [hlen]
      intro hc
      exact hw (Nat.eq_of_mul_eq_mul_left (List.length_pos.mpr hne) hc)
    simp only [reshapeBatch, if_neg this]

/-- Witness for C8 at `units_out = units_in = 1` and one edge. -/
theorem trafo_edge_net_messages_shape_witness :
    ∃ out, trafoEdgeNetMessages 1 1 (fun t => t) [[1]] [0]
        (RaggedT.mk [[5]] [0, 1]) = some out ∧
      out.rowSplits = (RaggedT.mk ([[(5 : ℝ)]]) [0, 1]).rowSplits :=
  (trafo_edge_net_messages_shape 1 1 (fun t => t) [[1]] [0]
    (RaggedT.mk [[5]] [0, 1]) rfl rfl).2.1

/-! ## Claim C7: only the node state changes, with its partition -/

/-- Claim C7: the GRU node update reattaches the node state's own row
splits, so the updated node batch has per-graph lengths identical to the
previous node state's; and over any number of loop iterations of the
message-passing forward pass, the edge features and edge indices are left
untouched and the node partition is preserved — only the node state field
is replaced. -/
theorem gru_update_preserves_partition :
    (∀ (p : GRUParams) (nodes updates : RaggedT (List ℝ)),
      (gruUpdate p nodes updates).rowSplits = nodes.rowSplits) ∧
    (∀ (nodeDim : ℕ) (method : PoolMethod) (gp : GRUParams) (d : ℕ) (s : NMPNState),
      Option.elim (nmpnLoop nodeDim method gp d s) True (fun s1 =>
        s1.edgeNet = s.edgeNet ∧ s1.edi = s.edi ∧
        s1.n.rowSplits = s.n.rowSplits)) := by
  have hstep : ∀ (nodeDim : ℕ) (method : PoolMethod) (gp : GRUParams) (s s1 : NMPNState),
      nmpnStep nodeDim method gp s = some s1 →
      s1.edgeNet = s.edgeNet ∧ s1.edi = s.edi ∧ s1.n.rowSplits = s.n.rowSplits := by
    intro nodeDim method gp s s1 h
    simp only [nmpnStep] at h
    cases htr : trafoMatMulMessages nodeDim nodeDim s.edgeNet
        (gatherNodesOutgoing s.n s.edi) with
    | none => rw [htr] at h; exact absurd h (by simp)
    | some eu2 =>
        rw [htr] at h
        simp only [Option.some.injEq] at h
        rw [← h]
        exact ⟨rfl, rfl, rfl⟩
  refine ⟨fun p nodes updates => rfl, ?_⟩
  intro nodeDim method gp d
  induction d with
  | zero => intro s; exact ⟨rfl, rfl, rfl⟩
  | succ dd ih =>
      intro s
      cases hst : nmpnStep nodeDim method gp s with
      | none =>
          have hgoal : nmpnLoop nodeDim method gp (dd + 1) s = none := by
            rw [show nmpnLoop nodeDim method gp (dd + 1) s =
              (match nmpnStep nodeDim method gp s with
                | none => none
                | some t => nmpnLoop nodeDim method gp dd t) from rfl, hst]
          rw [hgoal]
          simp
      | some s1 =>
          have hgoal : nmpnLoop nodeDim method gp (dd + 1) s =
              nmpnLoop nodeDim method gp dd s1 := by
            rw [show nmpnLoop nodeDim method gp (dd + 1) s =
              (match nmpnStep nodeDim method gp s with
                | none => none
                | some t => nmpnLoop nodeDim method gp dd t) from rfl, hst]
          have h1 := hstep nodeDim method gp s s1 hst
          have h2 := ih s1
          rw [hgoal]
          cases hlp : nmpnLoop nodeDim method gp dd s1 with
          | none => simp
          | some s2 =>
              rw [hlp] at h2
              simp only [Option.elim] at h2 ⊢
              exact ⟨h2.1.trans h1.1, h2.2.1.trans h1.2.1, h2.2.2.trans h1.2.2⟩

/-! ## Claim C4: neighbor-swap invariance of the angular featurizer -/

theorem getD_replicate {α : Type} (n j : ℕ) (x d : α) :
    (List.replicate n x).getD j d = if j < n then x else d := by
  induction n generalizing j with
  | zero => simp
  | succ nn ih =>
      cases j with
      | zero => simp [List.replicate]
      | succ jj =>
          rw [List.replicate_succ, List.getD_cons_succ, ih jj]
          simp [Nat.succ_lt_succ_iff]

theorem set2_length (tbl : List (List ℕ)) (a b v : ℕ) :
    (set2 tbl a b v).length = tbl.length := by
  simp [set2]

theorem set2_rowlen (tbl : List (List ℕ)) (x y v j : ℕ) :
    ((set2 tbl x y v).getD j []).length = (tbl.getD j []).length := by
  unfold set2
  rw [getD_set_eq]
  by_cases h : x = j ∧ x < tbl.length
  · rw [if_pos h, List.length_set, h.1]
  · rw [if_neg h]

theorem findPair_set2 (tbl : List (List ℕ)) (x y v a b : ℕ) :
    findAtomicNumberPairMaps (set2 tbl x y v) a b =
      if x = a ∧ x < tbl.length ∧ y = b ∧ y < (tbl.getD a []).length then v
      else findAtomicNumberPairMaps tbl a b := by
  unfold findAtomicNumberPairMaps set2
  rw [getD_set_eq]
  by_cases h1 : x = a ∧ x < tbl.length
  · rw [if_pos h1, getD_set_eq]
    by_cases h2 : y = b ∧ y < (tbl.getD x []).length
    · rw [if_pos h2, if_pos ⟨h1.1, h1.2, h2.1, h1.1 ▸ h2.2⟩]
    · rw [if_neg h2, if_neg, h1.1]
      intro hc
      exact h2 ⟨hc.2.2.1, h1.1 ▸ hc.2.2.2⟩
  · rw [if_neg h1, if_neg]
    intro hc
    exact h1 ⟨hc.1, hc.2.1⟩

theorem set2_swap_symm (tbl : List (List ℕ)) (x y v : ℕ)
    (hlen : tbl.length = maxAtomicNumber)
    (hrow : ∀ j, (tbl.getD j []).length = if j < maxAtomicNumber then maxAtomicNumber else 0)
    (hsym : ∀ a b, findAtomicNumberPairMaps tbl a b = findAtomicNumberPairMaps tbl b a)
    (a b : ℕ) :
    findAtomicNumberPairMaps (set2 (set2 tbl x y v) y x v) a b =
      findAtomicNumberPairMaps (set2 (set2 tbl x y v) y x v) b a := by
  have h1len : (set2 tbl x y v).length = maxAtomicNumber := by
    rw [set2_length, hlen]
  have h1row : ∀ j, ((set2 tbl x y v).getD j []).length =
      if j < maxAtomicNumber then maxAtomicNumber else 0 := by
    intro j; rw [set2_rowlen, hrow]
  rw [findPair_set2, findPair_set2, findPair_set2, findPair_set2,
    h1len, h1row a, h1row b, hlen, hrow a, hrow b]
  split_ifs <;> first | rfl | exact hsym a b | exact (hsym a b).symm | omega

theorem pairTable_symm_aux (l : List (ℕ × ℕ × ℕ)) (tbl : List (List ℕ))
    (hlen : tbl.length = maxAtomicNumber)
    (hrow : ∀ j, (tbl.getD j []).length = if j < maxAtomicNumber then maxAtomicNumber else 0)
    (hsym : ∀ a b, findAtomicNumberPairMaps tbl a b = findAtomicNumberPairMaps tbl b a) :
    ∀ a b, findAtomicNumberPairMaps
        (l.foldl (fun t ip => set2 (set2 t ip.2.1 ip.2.2 ip.1) ip.2.2 ip.2.1 ip.1) tbl) a b =
      findAtomicNumberPairMaps
        (l.foldl (fun t ip => set2 (set2 t ip.2.1 ip.2.2 ip.1) ip.2.2 ip.2.1 ip.1) tbl) b a := by
  induction l generalizing tbl with
  | nil => intro a b; exact hsym a b
  | cons ip l ih =>
      intro a b
      simp only [List.foldl_cons]
      refine ih (set2 (set2 tbl ip.2.1 ip.2.2 ip.1) ip.2.2 ip.2.1 ip.1) ?_ ?_ ?_ a b
      · rw [set2_length, set2_length, hlen]
      · intro j; rw [set2_rowlen, set2_rowlen, hrow]
      · exact set2_swap_symm tbl ip.2.1 ip.2.2 ip.1 hlen hrow hsym

theorem pairTable_symm (pairs : List (ℕ × ℕ)) (a b : ℕ) :
    findAtomicNumberPairMaps (pairTable pairs false) a b =
      findAtomicNumberPairMaps (pairTable pairs false) b a := by
  have hinit_len : (List.replicate maxAtomicNumber
      (List.replicate maxAtomicNumber sentinel64)).length = maxAtomicNumber := by
    simp
  have hinit_row : ∀ j, ((List.replicate maxAtomicNumber
      (List.replicate maxAtomicNumber sentinel64)).getD j []).length =
      if j < maxAtomicNumber then maxAtomicNumber else 0 := by
    intro j
    rw [getD_replicate]
    by_cases h : j < maxAtomicNumber
    · simp [h]
    · simp [h]
  have hinit_sym : ∀ a b, findAtomicNumberPairMaps (List.replicate maxAtomicNumber
      (List.replicate maxAtomicNumber sentinel64)) a b =
      findAtomicNumberPairMaps (List.replicate maxAtomicNumber
        (List.replicate maxAtomicNumber sentinel64)) b a := by
    intro a b
    unfold findAtomicNumberPairMaps
    rw [getD_replicate, getD_replicate]
    by_cases ha : a < maxAtomicNumber <;> by_cases hb : b < maxAtomicNumber
    · rw [if_pos ha, if_pos hb, getD_replicate, getD_replicate, if_pos hb, if_pos ha]
    · rw [if_pos ha, if_neg hb, getD_replicate, if_neg hb]
      simp
    · rw [if_neg ha, if_pos hb, getD_replicate, if_neg ha]
      simp
    · rw [if_neg ha, if_neg hb]
      simp
  exact pairTable_symm_aux pairs.enum _ hinit_len hinit_row hinit_sym a b

theorem distE_symm (addEps : Bool) (eps : ℝ) (a b : Vec3) :
    distE addEps eps a b = distE addEps eps b a := by
  unfold distE
  congr 1
  congr 1
  simp only [dot3, sub3]
  ring

theorem vecMul_map {α : Type} (f g : α → ℝ) (l : List α) :
    vecMul (l.map f) (l.map g) = l.map (fun x => f x * g x) :=
  zipWith_map_same (fun x y => x * y) f g l

theorem computePowCosAngle_swap (v w : Vec3) (r s : ℝ) (p : ℝ × ℝ × ℝ × ℝ) :
    computePowCosAngle v w r s p = computePowCosAngle w v s r p := by
  unfold computePowCosAngle
  have hdot : dot3 v w = dot3 w v := by simp only [dot3]; ring
  have hdiv : dot3 v w / r / s = dot3 w v / s / r := by
    rw [hdot, div_div, div_div, mul_comm]
  rw [hdiv]

theorem angularTripleRep_swap (table : List (List (ℝ × ℝ × ℝ × ℝ)))
    (addEps : Bool) (eps : ℝ) (xyz : List Vec3) (t : ℕ × ℕ × ℕ) (rel : ℕ) :
    angularTripleRep table addEps eps xyz (t.1, t.2.2, t.2.1) rel =
      angularTripleRep table addEps eps xyz t rel := by
  unfold angularTripleRep triDistances
  simp only [vecMul_map]
  refine congrArg (List.map · (table.getD rel [])) (funext fun p => ?_)
  rw [distE_symm addEps eps (xyz.getD t.2.2 (0, 0, 0)) (xyz.getD t.2.1 (0, 0, 0)),
    computePowCosAngle_swap]
  ring

theorem zipWith_map_right_same {α β γ : Type} (f : α → β → γ) (h : α → β) (l : List α) :
    List.zipWith f l (l.map h) = l.map (fun x => f x (h x)) := by
  induction l with
  | nil => rfl
  | cons a l ih => simp [ih]

/-- Claim C4: with `keep_pair_order` disabled, replacing every angle triple
`(i, j, k)` by `(i, k, j)` leaves the angular featurizer's per-atom output
unchanged. -/
theorem acsf_angular_swap_invariance (em : List ℕ) (pairs : List (ℕ × ℕ))
    (table : List (List (ℝ × ℝ × ℝ × ℝ))) (addEps : Bool) (eps : ℝ)
    (z : List ℕ) (xyz : List Vec3) (ijk : List (ℕ × ℕ × ℕ)) :
    angularCall em pairs false table addEps eps z xyz
        (ijk.map (fun t => (t.1, t.2.2, t.2.1))) =
      angularCall em pairs false table addEps eps z xyz ijk := by
  simp only [angularCall]
  congr 1
  congr 1
  rw [zipWith_map_right_same, zipWith_map_right_same, List.zip_map', List.zip_map',
    List.zip_map', List.zip_map', List.map_map]
  refine congrArg (List.map · ijk) (funext fun t => ?_)
  simp only [Function.comp]
  have hrel : findAtomicNumberPairMaps (pairTable pairs false) (z.getD t.2.2 0)
      (z.getD t.2.1 0) = findAtomicNumberPairMaps (pairTable pairs false)
      (z.getD t.2.1 0) (z.getD t.2.2 0) := pairTable_symm pairs _ _
  rw [hrel, angularTripleRep_swap]

/-! ## Claim C5: the radial per-atom descriptor -/

theorem vecSumM_length (m : ℕ) (vs : List (List ℝ)) : (vecSumM m vs).length = m := by
  simp [vecSumM]

theorem range_getD (n i : ℕ) (h : i < n) (d : ℕ) : (List.range n).getD i d = i := by
  rw [List.getD_eq_getElem _ d (by simpa using h)]
  simp

theorem vecSumM_getD (m : ℕ) (vs : List (List ℝ)) (q : ℕ) (hq : q < m) :
    (vecSumM m vs).getD q 0 = (vs.map (fun v => v.getD q 0)).sum := by
  unfold vecSumM
  rw [getD_map_lt _ _ q (by simpa using hq) _ 0, range_getD m q hq]

/-- Claim C5: the radial featurizer computes per edge `(i, j)` the product
`exp(-η·(r_ij - center)²)·fc(r_ij)` with `(η, center, cutoff)` selected by
the edge's relation id, sum-pools the products per relation into the
target atom's slots, and returns per-atom rows of fixed width
`num_relations · num_descriptors`, the `(p, q)` descriptor sitting at
flattened slot `p·m + q`. -/
theorem acsf_radial_descriptor_formula (em : List ℕ)
    (table : List (List (ℝ × ℝ × ℝ))) (addEps : Bool) (eps : ℝ)
    (z : List ℕ) (xyz : List Vec3) (eij : List (ℕ × ℕ)) (m : ℕ)
    (hm : (table.getD 0 []).length = m)
    (hrect : ∀ row ∈ table, row.length = m) :
    (radialCall em table addEps eps z xyz eij).length = z.length ∧
    (∀ row ∈ radialCall em table addEps eps z xyz eij,
      row.length = table.length * m) ∧
    (∀ n, n < z.length → ∀ p, p < table.length → ∀ q, q < m →
      ((radialCall em table addEps eps z xyz eij).getD n []).getD (p * m + q) 0 =
        (eij.filterMap (fun e =>
          if e.1 = n ∧
              findAtomicNumberMaps (reverseMapping em) (z.getD e.2 0) = p then
            some (Real.exp (-(((table.getD p []).getD q (0, 0, 0)).1 *
                (distE addEps eps (xyz.getD e.1 (0, 0, 0)) (xyz.getD e.2 (0, 0, 0)) -
                  ((table.getD p []).getD q (0, 0, 0)).2.1) ^ 2)) *
              computeFcR
                (distE addEps eps (xyz.getD e.1 (0, 0, 0)) (xyz.getD e.2 (0, 0, 0)))
                ((table.getD p []).getD q (0, 0, 0)))
          else none)).sum) := by
  simp only [radialCall, flattenRelations, relationalPoolSum, hm]
  rw [zipWith_map_same, List.zip_map', List.zip_map']
  constructor
  · simp
  constructor
  · intro row hrow
    rw [List.map_map] at hrow
    obtain ⟨n, hn, hr⟩ := List.mem_map.mp hrow
    rw [← hr]
    simp only [Function.comp]
    rw [List.length_join, sum_length_const _ m, List.length_map, List.length_range]
    intro l hl
    obtain ⟨p, hp, hpl⟩ := List.mem_map.mp hl
    rw [← hpl]
    exact vecSumM_length m _
  · intro n hn p hp q hq
    rw [List.map_map,
      getD_map_lt _ _ n (by simpa using hn) [] 0, range_getD _ n hn]
    simp only [Function.comp]
    rw [join_getD _ m ?hall p q (by simpa using hp) hq 0]
    case hall =>
      intro l hl
      obtain ⟨pp, hpp, hppl⟩ := List.mem_map.mp hl
      rw [← hppl]
      exact vecSumM_length m _
    rw [getD_map_lt _ _ p (by simpa using hp) [] 0, range_getD _ p hp]
    rw [vecSumM_getD m _ q hq, List.map_filterMap, List.filterMap_map]
    refine congrArg List.sum (filterMap_congr_mem fun e he => ?_)
    simp only [Function.comp_apply]
    by_cases hc : e.1 = n ∧
        findAtomicNumberMaps (reverseMapping em) (z.getD e.2 0) = p
    · rw [if_pos hc, if_pos hc]
      simp only [Option.map_some']
      have hps : (table.getD p []).length = m := by
        by_cases htl : table.length = 0
        · omega
        · refine hrect _ ?_
          rw [List.getD_eq_getElem _ [] hp]
          exact List.getElem_mem _
      rw [hc.2]
      unfold radialEdgeRep
      rw [vecMul_map, getD_map_lt _ _ q (by omega) 0 (0, 0, 0)]
      congr 1
      unfold computeGaussR
      congr 1
      ring_nf
    · rw [if_neg hc, if_neg hc]
      rfl

/-- Witness for C5: two relations, one descriptor each, two atoms; the
descriptor batch has one row per atom, each of width `2·1`. -/
theorem acsf_radial_descriptor_formula_witness :
    (radialCall [1, 6] [[(0, 0, 8)], [(1, 0, 8)]] false 0 [1, 6]
        [(0, 0, 0), (1, 0, 0)] [(0, 1), (1, 0)]).length = ([1, 6] : List ℕ).length ∧
    (∀ row ∈ radialCall [1, 6] [[(0, 0, 8)], [(1, 0, 8)]] false 0 [1, 6]
        [(0, 0, 0), (1, 0, 0)] [(0, 1), (1, 0)],
      row.length = ([[(0, 0, 8)], [(1, 0, 8)]] : List (List (ℝ × ℝ × ℝ))).length * 1) := by
  have h := acsf_radial_descriptor_formula [1, 6] [[(0, 0, 8)], [(1, 0, 8)]] false 0
    [1, 6] [(0, 0, 0), (1, 0, 0)] [(0, 1), (1, 0)] 1 rfl (by simp)
  exact ⟨h.1, h.2.1⟩

/-! ## Claim C6: the angular per-atom descriptor -/

/-- Claim C6: the angular featurizer computes per triple the term
`(1 + λ·cosθ)^ζ · 2^(1-ζ)` with `θ` the angle at the center atom,
multiplies it by the three cutoff weights `fc(r_ij)`, `fc(r_ik)`,
`fc(r_jk)` and the three Gaussian radial weights of the pairwise
distances, and sum-pools the product per relation into the center atom's
slots. -/
theorem acsf_angular_descriptor_formula (em : List ℕ) (pairs : List (ℕ × ℕ))
    (keepPairOrder : Bool) (table : List (List (ℝ × ℝ × ℝ × ℝ)))
    (addEps : Bool) (eps : ℝ) (z : List ℕ) (xyz : List Vec3)
    (ijk : List (ℕ × ℕ × ℕ)) (m : ℕ)
    (hm : (table.getD 0 []).length = m)
    (hrect : ∀ row ∈ table, row.length = m) :
    (angularCall em pairs keepPairOrder table addEps eps z xyz ijk).length = z.length ∧
    (∀ row ∈ angularCall em pairs keepPairOrder table addEps eps z xyz ijk,
      row.length = table.length * m) ∧
    (∀ n, n < z.length → ∀ p, p < table.length → ∀ q, q < m →
      ((angularCall em pairs keepPairOrder table addEps eps z xyz ijk).getD n []).getD
          (p * m + q) 0 =
        (ijk.filterMap (fun t =>
          if t.1 = n ∧ findAtomicNumberPairMaps (pairTable pairs keepPairOrder)
              (z.getD t.2.1 0) (z.getD t.2.2 0) = p then
            some ((1 + ((table.getD p []).getD q (0, 0, 0, 0)).2.2.1 *
                (dot3 (sub3 (xyz.getD t.1 (0, 0, 0)) (xyz.getD t.2.1 (0, 0, 0)))
                    (sub3 (xyz.getD t.1 (0, 0, 0)) (xyz.getD t.2.2 (0, 0, 0))) /
                  (triDistances addEps eps xyz t).1 /
                  (triDistances addEps eps xyz t).2.1)) ^
                ((table.getD p []).getD q (0, 0, 0, 0)).2.1 *
              (2 : ℝ) ^ (1 - ((table.getD p []).getD q (0, 0, 0, 0)).2.1) *
              (computeFcA (triDistances addEps eps xyz t).1
                  ((table.getD p []).getD q (0, 0, 0, 0)) *
                computeFcA (triDistances addEps eps xyz t).2.1
                  ((table.getD p []).getD q (0, 0, 0, 0)) *
                computeFcA (triDistances addEps eps xyz t).2.2
                  ((table.getD p []).getD q (0, 0, 0, 0))) *
              (computeGaussA (triDistances addEps eps xyz t).1
                  ((table.getD p []).getD q (0, 0, 0, 0)) *
                computeGaussA (triDistances addEps eps xyz t).2.1
                  ((table.getD p []).getD q (0, 0, 0, 0)) *
                computeGaussA (triDistances addEps eps xyz t).2.2
                  ((table.getD p []).getD q (0, 0, 0, 0))))
          else none)).sum) := by
  simp only [angularCall, flattenRelations, relationalPoolSum, hm]
  rw [zipWith_map_right_same, List.zip_map', List.zip_map']
  constructor
  · simp
  constructor
  · intro row hrow
    rw [List.map_map] at hrow
    obtain ⟨n, hn, hr⟩ := List.mem_map.mp hrow
    rw [← hr]
    simp only [Function.comp]
    rw [List.length_join, sum_length_const _ m, List.length_map, List.length_range]
    intro l hl
    obtain ⟨p, hp, hpl⟩ := List.mem_map.mp hl
    rw [← hpl]
    exact vecSumM_length m _
  · intro n hn p hp q hq
    rw [List.map_map,
      getD_map_lt _ _ n (by simpa using hn) [] 0, range_getD _ n hn]
    simp only [Function.comp]
    rw [join_getD _ m ?hall p q (by simpa using hp) hq 0]
    case hall =>
      intro l hl
      obtain ⟨pp, hpp, hppl⟩ := List.mem_map.mp hl
      rw [← hppl]
      exact vecSumM_length m _
    rw [getD_map_lt _ _ p (by simpa using hp) [] 0, range_getD _ p hp]
    rw [vecSumM_getD m _ q hq, List.map_filterMap, List.filterMap_map]
    refine congrArg List.sum (filterMap_congr_mem fun t ht => ?_)
    simp only [Function.comp_apply]
    by_cases hc : t.1 = n ∧ findAtomicNumberPairMaps (pairTable pairs keepPairOrder)
        (z.getD t.2.1 0) (z.getD t.2.2 0) = p
    · rw [if_pos hc, if_pos hc]
      simp only [Option.map_some']
      have hps : (table.getD p []).length = m := by
        by_cases htl : table.length = 0
        · omega
        · refine hrect _ ?_
          rw [List.getD_eq_getElem _ [] hp]
          exact List.getElem_mem _
      rw [hc.2]
      unfold angularTripleRep
      simp only [vecMul_map]
      rw [getD_map_lt _ _ q (by omega) 0 (0, 0, 0, 0)]
      simp only [computePowCosAngle]
      rw [show dot3 (sub3 (xyz.getD t.1 (0, 0, 0)) (xyz.getD t.2.1 (0, 0, 0)))
            (sub3 (xyz.getD t.1 (0, 0, 0)) (xyz.getD t.2.2 (0, 0, 0))) /
            (triDistances addEps eps xyz t).1 / (triDistances addEps eps xyz t).2.1 *
            ((table.getD p []).getD q (0, 0, 0, 0)).2.2.1 + 1 =
          1 + ((table.getD p []).getD q (0, 0, 0, 0)).2.2.1 *
            (dot3 (sub3 (xyz.getD t.1 (0, 0, 0)) (xyz.getD t.2.1 (0, 0, 0)))
              (sub3 (xyz.getD t.1 (0, 0, 0)) (xyz.getD t.2.2 (0, 0, 0))) /
              (triDistances addEps eps xyz t).1 /
              (triDistances addEps eps xyz t).2.1) from by ring]
      generalize (1 + ((table.getD p []).getD q (0, 0, 0, 0)).2.2.1 *
        (dot3 (sub3 (xyz.getD t.1 (0, 0, 0)) (xyz.getD t.2.1 (0, 0, 0)))
          (sub3 (xyz.getD t.1 (0, 0, 0)) (xyz.getD t.2.2 (0, 0, 0))) /
          (triDistances addEps eps xyz t).1 /
          (triDistances addEps eps xyz t).2.1)) ^
        ((table.getD p []).getD q (0, 0, 0, 0)).2.1 = P
      generalize ((2 : ℝ)) ^ (1 - ((table.getD p []).getD q (0, 0, 0, 0)).2.1) = T
      ring_nf
    · rw [if_neg hc, if_neg hc]
      rfl

/-- Witness for C6: one relation, one descriptor, three atoms, one triple. -/
theorem acsf_angular_descriptor_formula_witness :
    (angularCall [1] [(1, 1)] false [[(0, 1, -1, 8)]] false 0 [1, 1, 1]
        [(0, 0, 0), (1, 0, 0), (0, 1, 0)] [(0, 1, 2)]).length =
      ([1, 1, 1] : List ℕ).length ∧
    ∀ row ∈ angularCall [1] [(1, 1)] false [[(0, 1, -1, 8)]] false 0 [1, 1, 1]
        [(0, 0, 0), (1, 0, 0), (0, 1, 0)] [(0, 1, 2)],
      row.length = ([[(0, 1, -1, 8)]] : List (List (ℝ × ℝ × ℝ × ℝ))).length * 1 := by
  have h := acsf_angular_descriptor_formula [1] [(1, 1)] false [[(0, 1, -1, 8)]] false 0
    [1, 1, 1] [(0, 0, 0), (1, 0, 0), (0, 1, 0)] [(0, 1, 2)] 1 rfl (by simp)
  exact ⟨h.1, h.2.1⟩

/-! ## Claim C2: the message-passing forward pass -/

theorem gruCell_length (gp : GRUParams) (u : ℕ) (hgp : gp.WellShaped u)
    (x h : List ℝ) (hh : h.length = u) : (gruCell gp x h).length = u := by
  obtain ⟨h1, h2, h3, h4, h5, h6, h7, h8, h9, h10, h11, h12⟩ := hgp
  simp [gruCell, vecAdd, vecMul, matVec, h1, h2, h3, h4, h5, h6, h7, h8, h9,
    h10, h11, h12, hh]

theorem mem_of_mem_zipWith {α β γ : Type} {f : α → β → γ} :
    ∀ {l1 : List α} {l2 : List β} {c : γ}, c ∈ List.zipWith f l1 l2 →
      ∃ a ∈ l1, ∃ b ∈ l2, c = f a b := by
  intro l1
  induction l1 with
  | nil => intro l2 c hc; simp at hc
  | cons a l1 ih =>
      intro l2 c hc
      cases l2 with
      | nil => simp at hc
      | cons b l2 =>
          rw [List.zipWith_cons_cons] at hc
          rcases List.mem_cons.mp hc with hc | hc
          · exact ⟨a, List.mem_cons_self a l1, b, List.mem_cons_self b l2, hc⟩
          · obtain ⟨a1, ha1, b1, hb1, hab⟩ := ih hc
            exact ⟨a1, List.mem_cons_of_mem a ha1, b1, List.mem_cons_of_mem b hb1, hab⟩

theorem specStep_width (nodeDim : ℕ) (method : PoolMethod) (gp : GRUParams)
    (actE : ℝ → ℝ) (WE : List (List ℝ)) (bE : List ℝ)
    (edgesIn : List (List ℝ)) (edi : List (ℕ × ℕ)) (hgp : gp.WellShaped nodeDim)
    (n : RaggedT (List ℝ)) (hw : ∀ row ∈ n.values, row.length = nodeDim) :
    ∀ row ∈ (specMessagePassingStep nodeDim method gp actE WE bE edgesIn edi n).values,
      row.length = nodeDim := by
  intro row hrow
  simp only [specMessagePassingStep] at hrow
  obtain ⟨a, ha, b, _, hab⟩ := mem_of_mem_zipWith hrow
  rw [hab]
  exact gruCell_length gp nodeDim hgp b a (hw a ha)

theorem nmpnStep_spec (nodeDim : ℕ) (method : PoolMethod) (gp : GRUParams)
    (actE : ℝ → ℝ) (WE : List (List ℝ)) (bE : List ℝ)
    (edgesIn : List (List ℝ)) (s : NMPNState)
    (hWE : WE.length = nodeDim * nodeDim) (hbE : bE.length = nodeDim * nodeDim)
    (hE : s.edgeNet.values = edgesIn.map (dense actE WE bE)) :
    nmpnStep nodeDim method gp s =
      some (NMPNState.mk
        (specMessagePassingStep nodeDim method gp actE WE bE edgesIn s.edi.values s.n)
        s.edgeNet s.edi) := by
  have hall : s.edgeNet.values.all (fun v => v.length == nodeDim * nodeDim) = true := by
    rw [hE, List.all_eq_true]
    intro v hv
    obtain ⟨e, _, hev⟩ := List.mem_map.mp hv
    rw [← hev]
    simp [dense_length, hWE, hbE]
  have htr : trafoMatMulMessages nodeDim nodeDim s.edgeNet
      (RaggedT.mk (s.edi.values.map (fun e => s.n.values.getD e.2 [])) s.edi.rowSplits) =
      some (RaggedT.mk (List.zipWith (fun v x => matVec (chunkMat nodeDim nodeDim v) x)
        s.edgeNet.values (s.edi.values.map (fun e => s.n.values.getD e.2 [])))
        s.edi.rowSplits) := by
    unfold trafoMatMulMessages
    rw [hall]
    rfl
  have hmsg : List.zipWith (fun v x => matVec (chunkMat nodeDim nodeDim v) x)
      s.edgeNet.values (s.edi.values.map (fun e => s.n.values.getD e.2 [])) =
      List.zipWith matVec
        (edgesIn.map (fun ef => chunkMat nodeDim nodeDim (dense actE WE bE ef)))
        (s.edi.values.map (fun e => s.n.values.getD e.2 [])) := by
    rw [hE, List.zipWith_map_left, List.zipWith_map_left]
  simp only [nmpnStep, htr, specMessagePassingStep, gruUpdate, gatherNodesOutgoing,
    hmsg]

theorem nmpnLoop_spec (nodeDim : ℕ) (method : PoolMethod) (gp : GRUParams)
    (actE : ℝ → ℝ) (WE : List (List ℝ)) (bE : List ℝ) (edgesIn : List (List ℝ))
    (hWE : WE.length = nodeDim * nodeDim) (hbE : bE.length = nodeDim * nodeDim) :
    ∀ (d : ℕ) (s : NMPNState), s.edgeNet.values = edgesIn.map (dense actE WE bE) →
      nmpnLoop nodeDim method gp d s =
        some (NMPNState.mk
          ((fun nn => specMessagePassingStep nodeDim method gp actE WE bE edgesIn
              s.edi.values nn)^[d] s.n)
          s.edgeNet s.edi) := by
  intro d
  induction d with
  | zero =>
      intro s hE
      cases s
      rfl
  | succ dd ih =>
      intro s hE
      have hstep := nmpnStep_spec nodeDim method gp actE WE bE edgesIn s hWE hbE hE
      have hloop : nmpnLoop nodeDim method gp (dd + 1) s =
          nmpnLoop nodeDim method gp dd
            (NMPNState.mk
              (specMessagePassingStep nodeDim method gp actE WE bE edgesIn
                s.edi.values s.n)
              s.edgeNet s.edi) := by
        rw [show nmpnLoop nodeDim method gp (dd + 1) s =
          (match nmpnStep nodeDim method gp s with
            | none => none
            | some s1 => nmpnLoop nodeDim method gp dd s1) from rfl, hstep]
      rw [hloop, ih (NMPNState.mk
          (specMessagePassingStep nodeDim method gp actE WE bE edgesIn
            s.edi.values s.n)
          s.edgeNet s.edi) hE, Function.iterate_succ_apply]

/-- Claim C2: a forward pass of the message-passing model performs exactly
`depth` strictly sequential iterations — it equals the `depth`-fold
iteration of the spec's five-stage step (build the per-edge
`(units_out × units_in)` matrix from the edge features, gather the source
node state, apply the matrix, pool per target node, GRU-update the node
state) on the embedded initial node state, with no convergence check —
and every node-state row of the result keeps the width `node_dim` of the
previous state. -/
theorem nmpn_forward_depth_iterations (depth nodeDim : ℕ) (method : PoolMethod)
    (gp : GRUParams) (WN : List (List ℝ)) (bN : List ℝ) (actE : ℝ → ℝ)
    (WE : List (List ℝ)) (bE : List ℝ)
    (nodesIn edgesIn : RaggedT (List ℝ)) (edi : RaggedT (ℕ × ℕ))
    (hWE : WE.length = nodeDim * nodeDim) (hbE : bE.length = nodeDim * nodeDim)
    (hWN : WN.length = nodeDim) (hbN : bN.length = nodeDim)
    (hgp : gp.WellShaped nodeDim) :
    nmpnForward depth nodeDim method gp WN bN actE WE bE nodesIn edgesIn edi =
      some ((fun nn => specMessagePassingStep nodeDim method gp actE WE bE
          edgesIn.values edi.values nn)^[depth]
        (RaggedT.mk (nodesIn.values.map (dense (fun t => t) WN bN))
          nodesIn.rowSplits)) ∧
    ∀ row ∈ ((fun nn => specMessagePassingStep nodeDim method gp actE WE bE
          edgesIn.values edi.values nn)^[depth]
        (RaggedT.mk (nodesIn.values.map (dense (fun t => t) WN bN))
          nodesIn.rowSplits)).values,
      row.length = nodeDim := by
  constructor
  · have h := nmpnLoop_spec nodeDim method gp actE WE bE edgesIn.values hWE hbE depth
      (NMPNState.mk
        (RaggedT.mk (nodesIn.values.map (dense (fun t => t) WN bN)) nodesIn.rowSplits)
        (RaggedT.mk (edgesIn.values.map (dense actE WE bE)) edgesIn.rowSplits)
        edi) rfl
    simp only [nmpnForward, h, Option.map_some']
  · have hbase : ∀ row ∈ (RaggedT.mk (nodesIn.values.map (dense (fun t => t) WN bN))
        nodesIn.rowSplits).values, row.length = nodeDim := by
      intro row hrow
      obtain ⟨x, _, hx⟩ := List.mem_map.mp hrow
      rw [← hx, dense_length, hWN, hbN, Nat.min_self]
    generalize hn0 : (RaggedT.mk (nodesIn.values.map (dense (fun t => t) WN bN))
      nodesIn.rowSplits) = n0 at hbase ⊢
    clear hn0
    induction depth with
    | zero => exact hbase
    | succ dd ih =>
        rw [Function.iterate_succ_apply']
        exact specStep_width nodeDim method gp actE WE bE edgesIn.values edi.values
          hgp _ ih

/-- Witness for C2: depth 1, one unit, two nodes, one edge, concrete unit
weights. -/
theorem nmpn_forward_depth_iterations_witness :
    nmpnForward 1 1 PoolMethod.sum
        (GRUParams.mk (fun t => t) (fun t => t) [[1]] [[1]] [[1]] [[1]] [[1]] [[1]]
          [0] [0] [0] [0] [0] [0])
        [[1]] [0] (fun t => t) [[1]] [0]
        (RaggedT.mk [[1], [2]] [0, 2]) (RaggedT.mk [[1]] [0, 1])
        (RaggedT.mk [(0, 1)] [0, 1]) =
      some ((fun nn => specMessagePassingStep 1 PoolMethod.sum
          (GRUParams.mk (fun t => t) (fun t => t) [[1]] [[1]] [[1]] [[1]] [[1]] [[1]]
            [0] [0] [0] [0] [0] [0]) (fun t => t) [[1]] [0] [[1]] [(0, 1)] nn)^[1]
        (RaggedT.mk (([[1], [2]] : List (List ℝ)).map (dense (fun t => t) [[1]] [0]))
          [0, 2])) :=
  (nmpn_forward_depth_iterations 1 1 PoolMethod.sum
    (GRUParams.mk (fun t => t) (fun t => t) [[1]] [[1]] [[1]] [[1]] [[1]] [[1]]
      [0] [0] [0] [0] [0] [0])
    [[1]] [0] (fun t => t) [[1]] [0]
    (RaggedT.mk [[1], [2]] [0, 2]) (RaggedT.mk [[1]] [0, 1])
    (RaggedT.mk [(0, 1)] [0, 1]) rfl rfl rfl rfl
    ⟨rfl, rfl, rfl, rfl, rfl, rfl, rfl, rfl, rfl, rfl, rfl, rfl⟩).1
